/-
Verification of the topic-routing core of the rethinkdb/example-pubsub
repository (python sources: rethinkmq.py, repubsub.py, demo.py).

The embedding works at the level of character lists: a Python `str` is
modelled as a Lean `String`, and the string-manipulating functions of the
source are translated to structurally identical functions on `List Char`
(`str.split('.')` becomes `splitDots`, `str.lstrip("\\.")` becomes
`lstripChars`, `''.join` becomes `List.flatten`, `'^{0}$'.format` becomes
consing `'^'` and appending `'$'`).

The RE2 regular-expression engine that RethinkDB applies to the produced
regex strings is an external collaborator of the repository; it is modelled
by a standard regular-expression syntax `RE` with derivative-based matching
`RE.rmatch`, proven equivalent to the inductive matching relation `RMatch`.
The regex strings produced by `binding_key_to_regex` are tied to their `RE`
abstract syntax (`compileAST`) by the rendering theorem
`binding_key_to_regex_eq_render`.
-/

import Mathlib

namespace PubSub

/-! ### Character-list utilities mirroring the Python string operations -/

/-- Model of Python `s.split('.')`: split a character list at every dot,
keeping empty pieces, with `splitDots [] = [[]]` just as `''.split('.') == ['']`. -/
def splitDots : List Char → List (List Char)
  | [] => [[]]
  | c :: cs =>
    match splitDots cs with
    | [] => [[]]
    | s :: ss => if c = '.' then [] :: s :: ss else (c :: s) :: ss

/-- Joining with dots, the inverse of `splitDots`. -/
def joinDots : List (List Char) → List Char
  | [] => []
  | [s] => s
  | s :: ss => s ++ '.' :: joinDots ss

/-- Every segment list prefixed by a dot, concatenated: the character form of
the non-initial part of a dotted topic. -/
def dottedAll (ss : List (List Char)) : List Char :=
  (ss.map (fun s => '.' :: s)).flatten

/-- Model of Python `s.lstrip(bad)`: drop leading characters belonging to
`bad`. -/
def lstripChars (bad : List Char) : List Char → List Char
  | [] => []
  | c :: cs => if c ∈ bad then lstripChars bad cs else c :: cs

theorem splitDots_ne_nil (l : List Char) : splitDots l ≠ [] := by
  cases l with
  | nil => simp [splitDots]
  | cons c cs =>
    simp only [splitDots]
    cases splitDots cs with
    | nil => simp
    | cons s ss =>
      by_cases h : c = '.' <;> simp [h]

theorem joinDots_splitDots (l : List Char) : joinDots (splitDots l) = l := by
  induction l with
  | nil => rfl
  | cons c cs ih =>
    simp only [splitDots]
    rcases hs : splitDots cs with _ | ⟨s, ss⟩
    · exact absurd hs (splitDots_ne_nil cs)
    · rw [hs] at ih
      by_cases h : c = '.'
      · subst h
        simpa [joinDots] using ih
      · simp only [if_neg h]
        cases ss with
        | nil => simpa [joinDots] using ih
        | cons s2 ss2 => simpa [joinDots] using ih

/-- No piece produced by `splitDots` contains a dot. -/
theorem splitDots_no_dot (l : List Char) :
    ∀ s ∈ splitDots l, '.' ∉ s := by
  induction l with
  | nil => intro s hs; simp [splitDots] at hs; simp [hs]
  | cons c cs ih =>
    intro s hs
    rcases hsplit : splitDots cs with _ | ⟨t, ts⟩
    · exact absurd hsplit (splitDots_ne_nil cs)
    · rw [hsplit] at ih
      by_cases h : c = '.'
      · simp [splitDots, hsplit, h] at hs
        rcases hs with hs | hs | hs
        · simp [hs]
        · exact ih s (by simp [hs])
        · exact ih s (by simp [hs])
      · simp [splitDots, hsplit, h] at hs
        rcases hs with hs | hs
        · subst hs
          intro hmem
          rcases List.mem_cons.mp hmem with h1 | h1
          · exact h h1.symm
          · exact ih t (by simp) h1
        · exact ih s (by simp [hs])

theorem joinDots_cons (u : List Char) (us : List (List Char)) :
    joinDots (u :: us) = u ++ dottedAll us := by
  induction us generalizing u with
  | nil => simp [joinDots, dottedAll]
  | cons v vs ih => simp [joinDots, dottedAll, ih v, dottedAll]

theorem dottedAll_append (xs ys : List (List Char)) :
    dottedAll (xs ++ ys) = dottedAll xs ++ dottedAll ys := by
  simp [dottedAll]

theorem dottedAll_cons (u : List Char) (us : List (List Char)) :
    dottedAll (u :: us) = '.' :: (u ++ dottedAll us) := by
  simp [dottedAll]

/-! ### The pattern compiler of rethinkmq.py

`binding_key_to_regex` translates an AMQP binding key into an RE2 regex
string, exactly following the source:

    sections = []
    for section in pattern.split('.'):
        if section == '*':
            sections.append(r'\.[a-zA-Z]+')
        elif section == '#':
            sections.append(r'(?:\.[a-zA-Z]+)*')
        else:
            sections.append(r'\.' + section)
    return '^{}$'.format(''.join(sections).lstrip(r'\.'))
-/

/-- The regex fragment contributed by one section of the binding key
(the three branches of the loop body in `binding_key_to_regex`). -/
def sectionFrag (s : List Char) : List Char :=
  if s = ['*'] then ('\\' :: '.' :: ('[' : Char) :: "a-zA-Z]+".data)
  else if s = ['#'] then (('(' : Char) :: "?:".data ++ '\\' :: '.' :: ('[' : Char) :: "a-zA-Z]+".data ++ (')' : Char) :: ['*'])
  else '\\' :: '.' :: s

/-- Character-level form of `binding_key_to_regex`. -/
def brtrChars (pattern : List Char) : List Char :=
  '^' :: lstripChars ['\\', '.'] (((splitDots pattern).map sectionFrag).flatten) ++ ['$']

/-- `binding_key_to_regex` of rethinkmq.py: translate an AMQP binding key to
an RE2 regex string. -/
def binding_key_to_regex (pattern : String) : String :=
  String.mk (brtrChars pattern.data)

example : binding_key_to_regex ("weather.*.temp") = "^weather\\.[a-zA-Z]+\\.temp$" := by decide

example : binding_key_to_regex ("weather.#.temp") = "^weather(?:\\.[a-zA-Z]+)*\\.temp$" := by decide

example : binding_key_to_regex ("#.weather") = "^(?:\\.[a-zA-Z]+)*\\.weather$" := by decide

example : binding_key_to_regex ("") = "^$" := by decide

/-! ### The RE2 collaborator: regular-expression syntax and matching

The subset of RE2 exercised by the produced regex strings: the empty set,
the empty string, single characters, the character class `[a-zA-Z]`
(represented by a boolean character predicate), concatenation, alternation,
Kleene star and the one-or-more operator `+`. Anchoring by `^...$` is
represented by `rmatch` being a whole-string matcher. -/

inductive RE : Type
  | emp : RE
  | eps : RE
  | lit : Char → RE
  | cls : (Char → Bool) → RE
  | cat : RE → RE → RE
  | alt : RE → RE → RE
  | star : RE → RE
  | plus : RE → RE

/-- The matching relation of the regular-expression collaborator. -/
inductive RMatch : RE → List Char → Prop
  | eps : RMatch RE.eps []
  | lit (c : Char) : RMatch (RE.lit c) [c]
  | cls (p : Char → Bool) (c : Char) : p c = true → RMatch (RE.cls p) [c]
  | cat {r s : RE} {w1 w2 : List Char} :
      RMatch r w1 → RMatch s w2 → RMatch (RE.cat r s) (w1 ++ w2)
  | altL {r s : RE} {w : List Char} : RMatch r w → RMatch (RE.alt r s) w
  | altR {r s : RE} {w : List Char} : RMatch s w → RMatch (RE.alt r s) w
  | starNil {r : RE} : RMatch (RE.star r) []
  | starCons {r : RE} {w1 w2 : List Char} :
      RMatch r w1 → RMatch (RE.star r) w2 → RMatch (RE.star r) (w1 ++ w2)
  | plus {r : RE} {w1 w2 : List Char} :
      RMatch r w1 → RMatch (RE.star r) w2 → RMatch (RE.plus r) (w1 ++ w2)

/-- Does the regex accept the empty word? -/
def RE.nullable : RE → Bool
  | .emp => false
  | .eps => true
  | .lit _ => false
  | .cls _ => false
  | .cat r s => r.nullable && s.nullable
  | .alt r s => r.nullable || s.nullable
  | .star _ => true
  | .plus r => r.nullable

/-- Brzozowski derivative. -/
def RE.deriv : RE → Char → RE
  | .emp, _ => .emp
  | .eps, _ => .emp
  | .lit d, c => if d = c then .eps else .emp
  | .cls p, c => if p c then .eps else .emp
  | .cat r s, c => if r.nullable then .alt (.cat (r.deriv c) s) (s.deriv c) else .cat (r.deriv c) s
  | .alt r s, c => .alt (r.deriv c) (s.deriv c)
  | .star r, c => .cat (r.deriv c) (.star r)
  | .plus r, c => .cat (r.deriv c) (.star r)

/-- Executable whole-string matcher by repeated derivation. -/
def RE.rmatch : RE → List Char → Bool
  | r, [] => r.nullable
  | r, c :: cs => (r.deriv c).rmatch cs

theorem cat_inv {r s : RE} {w : List Char} (h : RMatch (RE.cat r s) w) :
    ∃ w1 w2, w = w1 ++ w2 ∧ RMatch r w1 ∧ RMatch s w2 := by
  cases h with
  | cat h1 h2 => exact ⟨_, _, rfl, h1, h2⟩

theorem alt_inv {r s : RE} {w : List Char} (h : RMatch (RE.alt r s) w) :
    RMatch r w ∨ RMatch s w := by
  cases h with
  | altL h1 => exact Or.inl h1
  | altR h1 => exact Or.inr h1

theorem plus_inv {r : RE} {w : List Char} (h : RMatch (RE.plus r) w) :
    ∃ w1 w2, w = w1 ++ w2 ∧ RMatch r w1 ∧ RMatch (RE.star r) w2 := by
  cases h with
  | plus h1 h2 => exact ⟨_, _, rfl, h1, h2⟩

theorem eps_inv {w : List Char} (h : RMatch RE.eps w) : w = [] := by
  cases h; rfl

theorem lit_inv {c : Char} {w : List Char} (h : RMatch (RE.lit c) w) : w = [c] := by
  cases h; rfl

theorem cls_inv {p : Char → Bool} {w : List Char} (h : RMatch (RE.cls p) w) :
    ∃ c, w = [c] ∧ p c = true := by
  cases h with
  | cls p c hc => exact ⟨c, rfl, hc⟩

theorem nullable_iff (r : RE) : r.nullable = true ↔ RMatch r [] := by
  induction r with
  | emp =>
    constructor
    · intro h; exact absurd h (by decide)
    · intro h; cases h
  | eps =>
    constructor
    · intro _; exact RMatch.eps
    · intro _; rfl
  | lit c =>
    constructor
    · intro h; simp [RE.nullable] at h
    · intro h; cases h
  | cls p =>
    constructor
    · intro h; simp [RE.nullable] at h
    · intro h; cases h
  | cat r s ihr ihs =>
    simp only [RE.nullable, Bool.and_eq_true]
    constructor
    · rintro ⟨hr, hs⟩
      exact (List.nil_append [] ▸ RMatch.cat (ihr.mp hr) (ihs.mp hs))
    · intro h
      rcases cat_inv h with ⟨w1, w2, hw, h1, h2⟩
      rcases List.append_eq_nil.mp hw.symm with ⟨e1, e2⟩
      subst e1; subst e2
      exact ⟨ihr.mpr h1, ihs.mpr h2⟩
  | alt r s ihr ihs =>
    simp only [RE.nullable, Bool.or_eq_true]
    constructor
    · rintro (h | h)
      · exact RMatch.altL (ihr.mp h)
      · exact RMatch.altR (ihs.mp h)
    · intro h
      rcases alt_inv h with h | h
      · exact Or.inl (ihr.mpr h)
      · exact Or.inr (ihs.mpr h)
  | star r ih =>
    constructor
    · intro _; exact RMatch.starNil
    · intro _; rfl
  | plus r ih =>
    simp only [RE.nullable]
    constructor
    · intro h
      exact (List.nil_append [] ▸ RMatch.plus (ih.mp h) RMatch.starNil)
    · intro h
      rcases plus_inv h with ⟨w1, w2, hw, h1, h2⟩
      rcases List.append_eq_nil.mp hw.symm with ⟨e1, e2⟩
      subst e1; subst e2
      exact ih.mpr h1

theorem deriv_sound (r : RE) (c : Char) (w : List Char)
    (h : RMatch (r.deriv c) w) : RMatch r (c :: w) := by
  induction r generalizing w with
  | emp => cases h
  | eps => cases h
  | lit d =>
    simp only [RE.deriv] at h
    by_cases hd : d = c
    · rw [if_pos hd] at h
      cases h
      subst hd
      exact RMatch.lit d
    · rw [if_neg hd] at h
      cases h
  | cls p =>
    simp only [RE.deriv] at h
    by_cases hp : p c = true
    · rw [if_pos hp] at h
      cases h
      exact RMatch.cls p c hp
    · rw [if_neg hp] at h
      cases h
  | cat r s ihr ihs =>
    simp only [RE.deriv] at h
    by_cases hn : r.nullable = true
    · rw [if_pos hn] at h
      cases h with
      | altL h1 =>
        cases h1 with
        | cat h2 h3 =>
          rename_i w1 w2
          exact (List.cons_append c w1 w2 ▸ RMatch.cat (ihr w1 h2) h3)
      | altR h1 =>
        have h2 : RMatch s (c :: w) := ihs w h1
        exact (List.nil_append (c :: w) ▸ RMatch.cat ((nullable_iff r).mp hn) h2)
    · rw [if_neg hn] at h
      cases h with
      | cat h2 h3 =>
        rename_i w1 w2
        exact (List.cons_append c w1 w2 ▸ RMatch.cat (ihr w1 h2) h3)
  | alt r s ihr ihs =>
    simp only [RE.deriv] at h
    cases h with
    | altL h1 => exact RMatch.altL (ihr w h1)
    | altR h1 => exact RMatch.altR (ihs w h1)
  | star r ih =>
    simp only [RE.deriv] at h
    cases h with
    | cat h1 h2 =>
      rename_i w1 w2
      exact (List.cons_append c w1 w2 ▸ RMatch.starCons (ih w1 h1) h2)
  | plus r ih =>
    simp only [RE.deriv] at h
    cases h with
    | cat h1 h2 =>
      rename_i w1 w2
      exact (List.cons_append c w1 w2 ▸ RMatch.plus (ih w1 h1) h2)

theorem deriv_complete {r : RE} {u : List Char} (h : RMatch r u) :
    ∀ c w, u = c :: w → RMatch (r.deriv c) w := by
  induction h with
  | eps => intro c w hw; cases hw
  | lit d =>
    intro c w hw
    cases hw
    simp only [RE.deriv, if_pos rfl]
    exact RMatch.eps
  | cls p d hp =>
    intro c w hw
    cases hw
    simp only [RE.deriv, if_pos hp]
    exact RMatch.eps
  | @cat r s w1 w2 h1 h2 ih1 ih2 =>
    intro c w hw
    cases w1 with
    | nil =>
      have hn : r.nullable = true := (nullable_iff r).mpr h1
      simp only [List.nil_append] at hw
      simp only [RE.deriv, if_pos hn]
      exact RMatch.altR (ih2 c w hw)
    | cons d w1' =>
      simp only [List.cons_append, List.cons.injEq] at hw
      obtain ⟨hd, hww⟩ := hw
      subst hd
      subst hww
      have hstep : RMatch (RE.cat (r.deriv d) s) (w1' ++ w2) :=
        RMatch.cat (ih1 d w1' rfl) h2
      by_cases hn : r.nullable = true
      · simp only [RE.deriv, if_pos hn]
        exact RMatch.altL hstep
      · simp only [RE.deriv, if_neg hn]
        exact hstep
  | @altL r s w' h1 ih =>
    intro c w hw
    simp only [RE.deriv]
    exact RMatch.altL (ih c w hw)
  | @altR r s w' h1 ih =>
    intro c w hw
    simp only [RE.deriv]
    exact RMatch.altR (ih c w hw)
  | starNil => intro c w hw; cases hw
  | @starCons r w1 w2 h1 h2 ih1 ih2 =>
    intro c w hw
    cases w1 with
    | nil =>
      simp only [List.nil_append] at hw
      exact ih2 c w hw
    | cons d w1' =>
      simp only [List.cons_append, List.cons.injEq] at hw
      obtain ⟨hd, hww⟩ := hw
      subst hd
      subst hww
      simp only [RE.deriv]
      exact RMatch.cat (ih1 d w1' rfl) h2
  | @plus r w1 w2 h1 h2 ih1 ih2 =>
    intro c w hw
    cases w1 with
    | nil =>
      simp only [List.nil_append] at hw
      have hd := ih2 c w hw
      simpa only [RE.deriv] using hd
    | cons d w1' =>
      simp only [List.cons_append, List.cons.injEq] at hw
      obtain ⟨hd, hww⟩ := hw
      subst hd
      subst hww
      simp only [RE.deriv]
      exact RMatch.cat (ih1 d w1' rfl) h2

theorem rmatch_iff (r : RE) (w : List Char) : r.rmatch w = true ↔ RMatch r w := by
  induction w generalizing r with
  | nil => simpa only [RE.rmatch] using nullable_iff r
  | cons c cs ih =>
    simp only [RE.rmatch]
    constructor
    · intro h
      exact deriv_sound r c cs ((ih (r.deriv c)).mp h)
    · intro h
      exact (ih (r.deriv c)).mpr (deriv_complete h c cs rfl)

/-! ### Abstract syntax of the produced regexes

`compileAST` builds, section by section, the abstract syntax of exactly the
regex string `binding_key_to_regex` produces; the theorem
`binding_key_to_regex_eq_render` proves the two agree for every valid
pattern. -/

/-- The RE2 character class `[a-zA-Z]` as a predicate. -/
def isAZ (c : Char) : Bool := ('a' ≤ c && c ≤ 'z') || ('A' ≤ c && c ≤ 'Z')

/-- `[a-zA-Z]` -/
def alphaRE : RE := RE.cls isAZ

/-- `[a-zA-Z]+` : one topic word. -/
def wordRE : RE := RE.plus alphaRE

/-- `\.` : the literal delimiter. -/
def dotRE : RE := RE.lit '.'

/-- A sequence of literal characters. -/
def litsRE : List Char → RE
  | [] => RE.eps
  | c :: cs => RE.cat (RE.lit c) (litsRE cs)

/-- Abstract syntax of `sectionFrag`: the regex fragment of one binding-key
section. -/
def sectionAST (s : List Char) : RE :=
  if s = ['*'] then RE.cat dotRE wordRE
  else if s = ['#'] then RE.star (RE.cat dotRE wordRE)
  else RE.cat dotRE (litsRE s)

/-- Abstract effect of `lstrip(r'\.')` on the first fragment: remove its
leading escaped delimiter when it has one. -/
def stripLead : RE → RE
  | RE.cat (RE.lit c) r => if c = '.' then r else RE.cat (RE.lit c) r
  | r => r

/-- Concatenation of a list of regexes. -/
def REseq : List RE → RE
  | [] => RE.eps
  | r :: rs => RE.cat r (REseq rs)

/-- Abstract syntax of the anchored regex produced by
`binding_key_to_regex`. -/
def compileAST (p : String) : RE :=
  match (splitDots p.data).map sectionAST with
  | [] => RE.eps
  | f :: fs => RE.cat (stripLead f) (REseq fs)

/-- Model of RethinkDB evaluating `r.row['topic'].match(regex)` where
`regex = binding_key_to_regex pattern`: RE2 matching of the produced
anchored regex against the topic string. -/
def topicMatch (pattern topic : String) : Bool :=
  (compileAST pattern).rmatch topic.data

/-- Printing a regex back to RE2 concrete syntax, as produced by the
compiler. -/
def render : RE → List Char
  | RE.emp => []
  | RE.eps => []
  | RE.lit c => if c = '.' then ['\\', '.'] else [c]
  | RE.cls _ => ('[' : Char) :: "a-zA-Z]".data
  | RE.cat r s => render r ++ render s
  | RE.alt r s => render r ++ '|' :: render s
  | RE.star r => ('(' : Char) :: "?:".data ++ render r ++ (')' : Char) :: ['*']
  | RE.plus r => render r ++ ['+']

/-! ### Validity of patterns and topics -/

/-- A valid binding-key section: `*`, `#`, or a nonempty all-letters
literal. -/
def validSec (s : List Char) : Bool :=
  s = ['*'] || s = ['#'] || (!s.isEmpty && s.all isAZ)

/-- A valid binding pattern: every dot-separated section is valid. -/
def validPattern (p : String) : Bool :=
  (splitDots p.data).all validSec

/-- A valid topic segment: nonempty, letters only. -/
def validTopicSeg (s : List Char) : Bool := !s.isEmpty && s.all isAZ

/-- A valid topic string: every dot-separated segment is nonempty and
letters only. -/
def validTopic (t : String) : Bool :=
  (splitDots t.data).all validTopicSeg

/-! ### The produced string renders the abstract syntax -/

theorem render_litsRE {s : List Char} (hs : '.' ∉ s) : render (litsRE s) = s := by
  induction s with
  | nil => rfl
  | cons c cs ih =>
    have hc : c ≠ '.' := fun h => hs (h ▸ List.mem_cons_self c cs)
    have hcs : '.' ∉ cs := fun h => hs (List.mem_cons_of_mem c h)
    simp only [litsRE, render, if_neg hc, ih hcs]
    rfl

theorem sectionFrag_eq_render {s : List Char} (hs : '.' ∉ s) :
    sectionFrag s = render (sectionAST s) := by
  by_cases h1 : s = ['*']
  · subst h1; rfl
  · by_cases h2 : s = ['#']
    · subst h2; rfl
    · simp only [sectionFrag, sectionAST, if_neg h1, if_neg h2, render, dotRE]
      simp [render_litsRE hs]

theorem render_REseq (rs : List RE) :
    render (REseq rs) = (rs.map render).flatten := by
  induction rs with
  | nil => rfl
  | cons r rest ih => simp [REseq, render, ih]

/-- Stripping the compiler's leading escaped dot, for a valid first
section: the string-level `lstrip` agrees with the syntax-level
`stripLead`. -/
theorem lstrip_sectionFrag {s : List Char} (hs : validSec s = true) (rest : List Char) :
    lstripChars ['\\', '.'] (sectionFrag s ++ rest) =
      render (stripLead (sectionAST s)) ++ rest := by
  by_cases h1 : s = ['*']
  · subst h1
    simp [sectionFrag, sectionAST, stripLead, dotRE, wordRE, alphaRE, render, lstripChars]
  · by_cases h2 : s = ['#']
    · subst h2
      simp [sectionFrag, sectionAST, stripLead, dotRE, wordRE, alphaRE, render, lstripChars]
    · cases s with
      | nil => simp [validSec] at hs
      | cons c cs =>
        have hsall : (c :: cs).all isAZ = true := by
          have h1' : decide (c :: cs = ['*']) = false := by simpa using h1
          have h2' : decide (c :: cs = ['#']) = false := by simpa using h2
          simp only [validSec, h1', h2', Bool.false_or, Bool.and_eq_true] at hs
          exact hs.2
        have hall : ∀ x ∈ c :: cs, isAZ x = true := List.all_eq_true.mp hsall
        have hc : isAZ c = true := hall c (List.mem_cons_self c cs)
        have hcbad : c ∉ ['\\', '.'] := by
          intro hmem
          rcases List.mem_cons.mp hmem with h | h
          · subst h; revert hc; decide
          · rcases List.mem_cons.mp h with h' | h'
            · subst h'; revert hc; decide
            · cases h'
        have hnodot : '.' ∉ c :: cs := by
          intro hmem
          have : isAZ '.' = true := hall '.' hmem
          revert this; decide
        simp only [sectionFrag, sectionAST, if_neg h1, if_neg h2, stripLead, dotRE]
        simp only [List.cons_append, lstripChars]
        rw [if_pos (by decide : ('\\' : Char) ∈ ['\\', '.'])]
        rw [if_pos (by decide : ('.' : Char) ∈ ['\\', '.'])]
        rw [if_neg hcbad]
        simp [render_litsRE hnodot]

/-- For every valid pattern, the string produced by `binding_key_to_regex`
is exactly the anchored rendering of `compileAST`. -/
theorem binding_key_to_regex_eq_render (p : String) (hp : validPattern p = true) :
    (binding_key_to_regex p).data = '^' :: render (compileAST p) ++ ['$'] := by
  rcases hsecs : splitDots p.data with _ | ⟨s1, rest⟩
  · exact absurd hsecs (splitDots_ne_nil p.data)
  · have hvalid : ∀ s ∈ splitDots p.data, validSec s = true := by
      simpa only [validPattern, List.all_eq_true] using hp
    have hs1 : validSec s1 = true := hvalid s1 (by rw [hsecs]; simp)
    have hnodots : ∀ s ∈ rest, '.' ∉ s := by
      intro s hs
      exact splitDots_no_dot p.data s (by rw [hsecs]; simp [hs])
    have hrest : ((rest.map sectionFrag).flatten) = render (REseq (rest.map sectionAST)) := by
      rw [render_REseq]
      congr 1
      rw [List.map_map]
      exact List.map_congr_left (fun s hs => sectionFrag_eq_render (hnodots s hs))
    show String.data (String.mk (brtrChars p.data)) = _
    simp only [brtrChars, hsecs, List.map_cons, List.flatten_cons, compileAST]
    rw [lstrip_sectionFrag hs1, hrest]
    simp [render]

/-! ### The specification's per-segment matching rule -/

/-- A binding-pattern segment as the spec describes it: a literal, the
one-segment wildcard `*`, or the zero-or-more wildcard `#`. -/
inductive PatSeg : Type
  | lit : List Char → PatSeg
  | star : PatSeg
  | hash : PatSeg
deriving DecidableEq

/-- Classify one dot-separated pattern section. -/
def classify (s : List Char) : PatSeg :=
  if s = ['*'] then PatSeg.star else if s = ['#'] then PatSeg.hash else PatSeg.lit s

/-- The segments of a binding pattern. -/
def patSegs (p : String) : List PatSeg := (splitDots p.data).map classify

/-- The segments of a topic string. -/
def topicSegs (t : String) : List (List Char) := splitDots t.data

/-- Does `f` accept some suffix of the segment list? -/
def suffixAny (f : List (List Char) → Bool) : List (List Char) → Bool
  | [] => f []
  | t :: ts => f (t :: ts) || suffixAny f ts

/-- Modelled from the spec: "T's segments satisfy P's per-segment rule
(literal-equality, exactly-one-for-`*`, zero-or-more-for-`#`)
position-by-position". A literal segment must equal the topic segment, `*`
consumes exactly one topic segment, and `#` consumes zero or more whole
topic segments (the rest of the pattern must accept some suffix of the
topic). This is the specification-side matching rule that the compiled
predicate is compared against. -/
def segsMatch : List PatSeg → List (List Char) → Bool
  | [], [] => true
  | [], _ :: _ => false
  | PatSeg.lit _ :: _, [] => false
  | PatSeg.lit s :: ps, t :: ts => decide (s = t) && segsMatch ps ts
  | PatSeg.star :: _, [] => false
  | PatSeg.star :: ps, _ :: ts => segsMatch ps ts
  | PatSeg.hash :: ps, ts => suffixAny (segsMatch ps) ts

example : segsMatch (patSegs ("weather.#.temp")) (topicSegs ("weather.temp")) = true := by decide

example : segsMatch (patSegs ("weather.*.temp")) (topicSegs ("weather.us.uk.temp")) = false := by decide

theorem suffixAny_of_here {f : List (List Char) → Bool} {ts : List (List Char)}
    (h : f ts = true) : suffixAny f ts = true := by
  cases ts with
  | nil => simpa [suffixAny] using h
  | cons t ts' => simp [suffixAny, h]

/-- `#` absorbs any run of whole segments placed before the rest of the
match. -/
theorem hash_absorb {ps : List PatSeg} {ts : List (List Char)}
    (h : segsMatch ps ts = true) (us : List (List Char)) :
    segsMatch (PatSeg.hash :: ps) (us ++ ts) = true := by
  show suffixAny (segsMatch ps) (us ++ ts) = true
  induction us with
  | nil => exact suffixAny_of_here h
  | cons u us' ih => simp [suffixAny, ih]

/-- Conversely, a `#`-headed match always splits the topic into an absorbed
run and a remainder matched by the rest of the pattern. -/
theorem hash_split {ps : List PatSeg} {ts : List (List Char)}
    (h : segsMatch (PatSeg.hash :: ps) ts = true) :
    ∃ us ts', ts = us ++ ts' ∧ segsMatch ps ts' = true := by
  have h' : suffixAny (segsMatch ps) ts = true := h
  clear h
  induction ts with
  | nil => exact ⟨[], [], rfl, by simpa [suffixAny] using h'⟩
  | cons t ts' ih =>
    simp only [suffixAny, Bool.or_eq_true] at h'
    rcases h' with h | h
    · exact ⟨[], t :: ts', rfl, h⟩
    · rcases ih h with ⟨us, rest, heq, hm⟩
      exact ⟨t :: us, rest, by simp [heq], hm⟩

/-! ### Languages of the compiled fragments -/

theorem star_chunks {r : RE} {w : List Char} (h : RMatch (RE.star r) w) :
    ∃ ws : List (List Char), w = ws.flatten ∧ ∀ u ∈ ws, RMatch r u := by
  generalize hq : RE.star r = q at h
  revert hq
  induction h with
  | eps => intro hq; simp at hq
  | lit d => intro hq; simp at hq
  | cls p c hc => intro hq; simp at hq
  | cat h1 h2 ih1 ih2 => intro hq; simp at hq
  | altL h1 ih => intro hq; simp at hq
  | altR h1 ih => intro hq; simp at hq
  | plus h1 h2 ih1 ih2 => intro hq; simp at hq
  | starNil =>
    intro _
    exact ⟨[], rfl, fun u hu => absurd hu (List.not_mem_nil u)⟩
  | @starCons r0 w1 w2 h1 h2 ih1 ih2 =>
    intro hq
    injection hq with hr
    subst hr
    rcases ih2 rfl with ⟨ws, hflat, hall⟩
    refine ⟨w1 :: ws, by simp [hflat], ?_⟩
    intro u hu
    rcases List.mem_cons.mp hu with h | h
    · subst h; exact h1
    · exact hall u h

theorem star_of_chunks {r : RE} (ws : List (List Char))
    (h : ∀ u ∈ ws, RMatch r u) : RMatch (RE.star r) ws.flatten := by
  induction ws with
  | nil => exact RMatch.starNil
  | cons u us ih =>
    simp only [List.flatten_cons]
    exact RMatch.starCons (h u (by simp)) (ih (fun v hv => h v (by simp [hv])))

/-- The language of `[a-zA-Z]+`: nonempty all-letter words. -/
theorem word_iff (w : List Char) :
    RMatch wordRE w ↔ (w ≠ [] ∧ w.all isAZ = true) := by
  constructor
  · intro h
    rcases plus_inv h with ⟨w1, w2, hw, h1, h2⟩
    rcases cls_inv h1 with ⟨c, hc, hcz⟩
    rcases star_chunks h2 with ⟨ws, hflat, hall⟩
    have hw2 : w2.all isAZ = true := by
      subst hflat
      rw [List.all_eq_true]
      intro x hx
      rcases List.mem_flatten.mp hx with ⟨u, hu, hxu⟩
      rcases cls_inv (hall u hu) with ⟨d, hd, hdz⟩
      subst hd
      rcases List.mem_singleton.mp hxu with rfl
      exact hdz
    subst hc
    subst hw
    refine ⟨by simp, ?_⟩
    simp only [List.singleton_append, List.all_cons, Bool.and_eq_true]
    exact ⟨hcz, hw2⟩
  · rintro ⟨hne, hall⟩
    cases w with
    | nil => exact absurd rfl hne
    | cons c cs =>
      simp only [List.all_cons, Bool.and_eq_true] at hall
      have hcs : RMatch (RE.star alphaRE) cs := by
        have : ∀ u ∈ cs.map (fun c => [c]), RMatch alphaRE u := by
          intro u hu
          rcases List.mem_map.mp hu with ⟨d, hd, hdu⟩
          subst hdu
          exact RMatch.cls isAZ d (List.all_eq_true.mp hall.2 d hd)
        have hflat : (cs.map (fun c => [c])).flatten = cs := by
          induction cs with
          | nil => rfl
          | cons d ds ihd => simp_all
        exact hflat ▸ star_of_chunks _ this
      exact (List.singleton_append ▸
        RMatch.plus (RMatch.cls isAZ c hall.1) hcs)

/-- The language of a literal character sequence. -/
theorem lits_iff (s w : List Char) : RMatch (litsRE s) w ↔ w = s := by
  induction s generalizing w with
  | nil =>
    simp only [litsRE]
    exact ⟨fun h => eps_inv h, fun h => h ▸ RMatch.eps⟩
  | cons c cs ih =>
    simp only [litsRE]
    constructor
    · intro h
      rcases cat_inv h with ⟨w1, w2, hw, h1, h2⟩
      rw [lit_inv h1] at hw
      rw [(ih w2).mp h2] at hw
      simpa using hw
    · intro h
      subst h
      exact (List.singleton_append ▸ RMatch.cat (RMatch.lit c) ((ih cs).mpr rfl))

/-- The language of `\.[a-zA-Z]+`: a dot followed by one word. -/
theorem dotword_iff (w : List Char) :
    RMatch (RE.cat dotRE wordRE) w ↔
      ∃ u, w = '.' :: u ∧ u ≠ [] ∧ u.all isAZ = true := by
  constructor
  · intro h
    rcases cat_inv h with ⟨w1, w2, hw, h1, h2⟩
    rw [lit_inv h1] at hw
    rcases (word_iff w2).mp h2 with ⟨hne, hall⟩
    exact ⟨w2, by simpa using hw, hne, hall⟩
  · rintro ⟨u, hw, hne, hall⟩
    subst hw
    exact (List.singleton_append ▸
      RMatch.cat (RMatch.lit '.') ((word_iff u).mpr ⟨hne, hall⟩))

/-- The language of `(?:\.[a-zA-Z]+)*`: zero or more dot-prefixed words. -/
theorem hash_lang_iff (w : List Char) :
    RMatch (RE.star (RE.cat dotRE wordRE)) w ↔
      ∃ ss, w = dottedAll ss ∧ ∀ u ∈ ss, u ≠ [] ∧ u.all isAZ = true := by
  constructor
  · intro h
    rcases star_chunks h with ⟨ws, hflat, hall⟩
    subst hflat
    clear h
    induction ws with
    | nil => exact ⟨[], rfl, fun u hu => absurd hu (List.not_mem_nil u)⟩
    | cons u us ih =>
      rcases (dotword_iff u).mp (hall u (by simp)) with ⟨v, hv, hvne, hvall⟩
      rcases ih (fun x hx => hall x (by simp [hx])) with ⟨ss, hss, hssall⟩
      refine ⟨v :: ss, ?_, ?_⟩
      · rw [List.flatten_cons, hv, hss, dottedAll_cons]
        simp
      · intro x hx
        rcases List.mem_cons.mp hx with h | h
        · subst h; exact ⟨hvne, hvall⟩
        · exact hssall x h
  · rintro ⟨ss, hw, hall⟩
    subst hw
    induction ss with
    | nil => exact RMatch.starNil
    | cons u us ih =>
      have h1 : RMatch (RE.cat dotRE wordRE) ('.' :: u) :=
        (dotword_iff _).mpr ⟨u, rfl, (hall u (by simp)).1, (hall u (by simp)).2⟩
      have h2 := ih (fun x hx => hall x (by simp [hx]))
      rw [dottedAll_cons]
      exact (List.cons_append '.' u (dottedAll us) ▸ RMatch.starCons h1 h2)

theorem validSec_lit {s : List Char} (hs : validSec s = true)
    (h1 : s ≠ ['*']) (h2 : s ≠ ['#']) : s ≠ [] ∧ s.all isAZ = true := by
  have h1' : decide (s = ['*']) = false := by simpa using h1
  have h2' : decide (s = ['#']) = false := by simpa using h2
  simp only [validSec, h1', h2', Bool.false_or, Bool.and_eq_true] at hs
  constructor
  · intro hnil; rw [hnil] at hs; simpa using hs.1
  · exact hs.2

theorem validTopicSeg_iff (u : List Char) :
    validTopicSeg u = true ↔ (u ≠ [] ∧ u.all isAZ = true) := by
  cases u <;> simp [validTopicSeg]

/-- A letters-only word contains no dot. -/
theorem no_dot_of_all_isAZ {u : List Char} (h : u.all isAZ = true) : '.' ∉ u := by
  intro hmem
  have := List.all_eq_true.mp h '.' hmem
  revert this; decide

/-- Language of the concatenated fragments of the non-initial pattern
sections: exactly the dot-prefixed encodings of valid segment lists that
satisfy the per-segment rule. -/
theorem REseq_sections_iff (secs : List (List Char))
    (hv : ∀ s ∈ secs, validSec s = true) (w : List Char) :
    RMatch (REseq (secs.map sectionAST)) w ↔
      ∃ ts, w = dottedAll ts ∧ (∀ u ∈ ts, validTopicSeg u = true) ∧
        segsMatch (secs.map classify) ts = true := by
  induction secs generalizing w with
  | nil =>
    simp only [List.map_nil, REseq]
    constructor
    · intro h
      rw [eps_inv h]
      exact ⟨[], rfl, by simp, rfl⟩
    · rintro ⟨ts, hw, hvt, hm⟩
      cases ts with
      | nil => subst hw; exact RMatch.eps
      | cons t ts' => simp [segsMatch] at hm
  | cons s rest ih =>
    have hvrest : ∀ x ∈ rest, validSec x = true := fun x hx => hv x (by simp [hx])
    have hvs : validSec s = true := hv s (by simp)
    simp only [List.map_cons, REseq]
    constructor
    · intro h
      rcases cat_inv h with ⟨w1, w2, hw, h1, h2⟩
      rcases (ih hvrest w2).mp h2 with ⟨ts', hw2, hvt', hm'⟩
      by_cases hstar : s = ['*']
      · subst hstar
        rw [sectionAST, if_pos rfl] at h1
        rcases (dotword_iff w1).mp h1 with ⟨u, hu, hune, huall⟩
        refine ⟨u :: ts', ?_, ?_, ?_⟩
        · rw [hw, hu, hw2, dottedAll_cons]; simp
        · intro x hx
          rcases List.mem_cons.mp hx with hx | hx
          · subst hx; exact (validTopicSeg_iff x).mpr ⟨hune, huall⟩
          · exact hvt' x hx
        · simpa [classify, segsMatch] using hm'
      · by_cases hhash : s = ['#']
        · subst hhash
          rw [sectionAST, if_neg (by decide), if_pos rfl] at h1
          rcases (hash_lang_iff w1).mp h1 with ⟨ss, hw1, hssv⟩
          refine ⟨ss ++ ts', ?_, ?_, ?_⟩
          · rw [hw, hw1, hw2, dottedAll_append]
          · intro x hx
            rcases List.mem_append.mp hx with hx | hx
            · exact (validTopicSeg_iff x).mpr (hssv x hx)
            · exact hvt' x hx
          · simpa [classify] using hash_absorb hm' ss
        · rcases validSec_lit hvs hstar hhash with ⟨hne, hall⟩
          rw [sectionAST, if_neg hstar, if_neg hhash] at h1
          rcases cat_inv h1 with ⟨v1, v2, hw1, hd, hlits⟩
          rw [lit_inv hd, (lits_iff s v2).mp hlits] at hw1
          refine ⟨s :: ts', ?_, ?_, ?_⟩
          · rw [hw, hw1, hw2, dottedAll_cons]; simp
          · intro x hx
            rcases List.mem_cons.mp hx with hx | hx
            · subst hx; exact (validTopicSeg_iff x).mpr ⟨hne, hall⟩
            · exact hvt' x hx
          · simp only [classify, if_neg hstar, if_neg hhash, List.map_cons, segsMatch]
            simp [hm']
    · rintro ⟨ts, hw, hvt, hm⟩
      by_cases hstar : s = ['*']
      · subst hstar
        cases ts with
        | nil => simp [classify, segsMatch] at hm
        | cons u ts' =>
          have hm' : segsMatch (rest.map classify) ts' = true := by
            simpa [classify, segsMatch] using hm
          subst hw
          rw [dottedAll_cons]
          rcases (validTopicSeg_iff u).mp (hvt u (by simp)) with ⟨hune, huall⟩
          have h1 : RMatch (sectionAST ['*']) ('.' :: u) := by
            rw [sectionAST, if_pos rfl]
            exact (dotword_iff _).mpr ⟨u, rfl, hune, huall⟩
          have h2 : RMatch (REseq (rest.map sectionAST)) (dottedAll ts') :=
            (ih hvrest _).mpr ⟨ts', rfl, fun x hx => hvt x (by simp [hx]), hm'⟩
          exact (List.cons_append '.' u (dottedAll ts') ▸ RMatch.cat h1 h2)
      · by_cases hhash : s = ['#']
        · subst hhash
          have hm2 : segsMatch (PatSeg.hash :: rest.map classify) ts = true := by
            simpa [classify] using hm
          rcases hash_split hm2 with ⟨us, ts', hts, hm'⟩
          subst hts
          subst hw
          rw [dottedAll_append]
          have h1 : RMatch (sectionAST ['#']) (dottedAll us) := by
            rw [sectionAST, if_neg (by decide), if_pos rfl]
            exact (hash_lang_iff _).mpr
              ⟨us, rfl, fun x hx => (validTopicSeg_iff x).mp (hvt x (by simp [hx]))⟩
          have h2 : RMatch (REseq (rest.map sectionAST)) (dottedAll ts') :=
            (ih hvrest _).mpr ⟨ts', rfl, fun x hx => hvt x (by simp [hx]), hm'⟩
          exact RMatch.cat h1 h2
        · cases ts with
          | nil => simp [classify, if_neg hstar, if_neg hhash, segsMatch] at hm
          | cons u ts' =>
            have hm0 : segsMatch (PatSeg.lit s :: rest.map classify) (u :: ts') = true := by
              simpa [classify, if_neg hstar, if_neg hhash] using hm
            simp only [segsMatch, Bool.and_eq_true, decide_eq_true_eq] at hm0
            obtain ⟨hsu, hm'⟩ := hm0
            subst hsu
            subst hw
            rw [dottedAll_cons]
            have h1 : RMatch (sectionAST s) ('.' :: s) := by
              rw [sectionAST, if_neg hstar, if_neg hhash]
              exact (List.singleton_append ▸
                RMatch.cat (RMatch.lit '.') ((lits_iff s s).mpr rfl))
            have h2 : RMatch (REseq (rest.map sectionAST)) (dottedAll ts') :=
              (ih hvrest _).mpr ⟨ts', rfl, fun x hx => hvt x (by simp [hx]), hm'⟩
            exact (List.cons_append '.' s (dottedAll ts') ▸ RMatch.cat h1 h2)

/-! ### Uniqueness of the dotted decomposition -/

theorem dotted_shape (xs : List (List Char)) :
    dottedAll xs = [] ∨ ∃ r, dottedAll xs = '.' :: r := by
  cases xs with
  | nil => exact Or.inl rfl
  | cons x xs' => exact Or.inr ⟨x ++ dottedAll xs', dottedAll_cons x xs'⟩

theorem dotfree_prefix : ∀ (a b r r' : List Char),
    '.' ∉ a → '.' ∉ b →
    (r = [] ∨ ∃ r0, r = '.' :: r0) → (r' = [] ∨ ∃ r0, r' = '.' :: r0) →
    a ++ r = b ++ r' → a = b ∧ r = r' := by
  intro a
  induction a with
  | nil =>
    intro b r r' _ hb hr _ h
    cases b with
    | nil => exact ⟨rfl, by simpa using h⟩
    | cons d b' =>
      exfalso
      simp only [List.nil_append, List.cons_append] at h
      rcases hr with h0 | ⟨r0, h0⟩
      · rw [h0] at h; simp at h
      · rw [h0] at h
        injection h with h1 _
        apply hb
        rw [← h1]
        exact List.mem_cons_self _ _
  | cons c a' iha =>
    intro b r r' ha hb hr hr' h
    cases b with
    | nil =>
      exfalso
      simp only [List.nil_append, List.cons_append] at h
      rcases hr' with h0 | ⟨r0, h0⟩
      · rw [h0] at h; simp at h
      · rw [h0] at h
        injection h with h1 _
        apply ha
        rw [h1]
        exact List.mem_cons_self _ _
    | cons d b' =>
      simp only [List.cons_append, List.cons.injEq] at h
      obtain ⟨hcd, h'⟩ := h
      subst hcd
      have ha' : '.' ∉ a' := fun hm => ha (List.mem_cons_of_mem c hm)
      have hb' : '.' ∉ b' := fun hm => hb (List.mem_cons_of_mem c hm)
      rcases iha b' r r' ha' hb' hr hr' h' with ⟨he, hre⟩
      exact ⟨by rw [he], hre⟩

theorem dottedAll_inj : ∀ (xs ys : List (List Char)),
    (∀ u ∈ xs, '.' ∉ u) → (∀ u ∈ ys, '.' ∉ u) →
    dottedAll xs = dottedAll ys → xs = ys := by
  intro xs
  induction xs with
  | nil =>
    intro ys _ _ h
    cases ys with
    | nil => rfl
    | cons y ys' =>
      rw [dottedAll_cons] at h
      exact absurd h (by simp [dottedAll])
  | cons x xs' ih =>
    intro ys hxs hys h
    cases ys with
    | nil =>
      rw [dottedAll_cons] at h
      exact absurd h (by simp [dottedAll])
    | cons y ys' =>
      rw [dottedAll_cons, dottedAll_cons] at h
      injection h with _ h2
      rcases dotfree_prefix x y (dottedAll xs') (dottedAll ys')
          (hxs x (by simp)) (hys y (by simp))
          (dotted_shape xs') (dotted_shape ys') h2 with ⟨hxy, hrest⟩
      subst hxy
      rw [ih ys' (fun u hu => hxs u (by simp [hu])) (fun u hu => hys u (by simp [hu])) hrest]

theorem dotted_decomp_unique {t1 u1 : List Char} {ts us : List (List Char)}
    (h1 : '.' ∉ t1) (h2 : '.' ∉ u1)
    (hts : ∀ x ∈ ts, '.' ∉ x) (hus : ∀ x ∈ us, '.' ∉ x)
    (h : t1 ++ dottedAll ts = u1 ++ dottedAll us) : t1 = u1 ∧ ts = us := by
  rcases dotfree_prefix t1 u1 (dottedAll ts) (dottedAll us) h1 h2
      (dotted_shape ts) (dotted_shape us) h with ⟨he, hr⟩
  exact ⟨he, dottedAll_inj ts us hts hus hr⟩

/-! ### The main matching theorem -/

theorem bool_eq_of_iff {a b : Bool} (h : a = true ↔ b = true) : a = b := by
  cases a <;> cases b <;> simp_all

theorem stripLead_dot (r : RE) : stripLead (RE.cat dotRE r) = r := by
  simp [stripLead, dotRE]

/-- For every valid pattern whose first section is not `#`, the compiled
regex matches a valid topic exactly when the spec's per-segment rule does. -/
theorem topicMatch_eq_segsMatch (p t : String)
    (hp : validPattern p = true) (ht : validTopic t = true)
    (hfirst : (splitDots p.data).head? ≠ some ['#']) :
    topicMatch p t = segsMatch (patSegs p) (topicSegs t) := by
  rcases hsecs : splitDots p.data with _ | ⟨s1, rest⟩
  · exact absurd hsecs (splitDots_ne_nil p.data)
  rcases htsegs : splitDots t.data with _ | ⟨t1, tts⟩
  · exact absurd htsegs (splitDots_ne_nil t.data)
  have hvsecs : ∀ s ∈ splitDots p.data, validSec s = true := List.all_eq_true.mp hp
  have hvt : ∀ u ∈ splitDots t.data, validTopicSeg u = true := List.all_eq_true.mp ht
  rw [hsecs] at hvsecs
  rw [htsegs] at hvt
  have hvrest : ∀ s ∈ rest, validSec s = true := fun s hs => hvsecs s (by simp [hs])
  have hvs1 : validSec s1 = true := hvsecs s1 (by simp)
  have hvt1 : validTopicSeg t1 = true := hvt t1 (by simp)
  have hvtts : ∀ u ∈ tts, validTopicSeg u = true := fun u hu => hvt u (by simp [hu])
  have htdata : t.data = t1 ++ dottedAll tts := by
    conv_lhs => rw [← joinDots_splitDots t.data]
    rw [htsegs, joinDots_cons]
  have hnd_t1 : '.' ∉ t1 := splitDots_no_dot t.data t1 (by rw [htsegs]; simp)
  have hnd_tts : ∀ x ∈ tts, '.' ∉ x :=
    fun x hx => splitDots_no_dot t.data x (by rw [htsegs]; simp [hx])
  have hs1ne : s1 ≠ ['#'] := by
    intro hcon
    exact hfirst (by rw [hsecs, hcon]; rfl)
  have hcomp : compileAST p =
      RE.cat (stripLead (sectionAST s1)) (REseq (rest.map sectionAST)) := by
    simp only [compileAST, hsecs, List.map_cons]
  have hpats : patSegs p = classify s1 :: rest.map classify := by
    simp only [patSegs, hsecs, List.map_cons]
  have htops : topicSegs t = t1 :: tts := by
    simp only [topicSegs, htsegs]
  apply bool_eq_of_iff
  by_cases hstar : s1 = ['*']
  · subst hstar
    have hstrip : stripLead (sectionAST ['*']) = wordRE := by
      rw [sectionAST, if_pos rfl, stripLead_dot]
    constructor
    · intro hmt
      have hm := (rmatch_iff _ _).mp hmt
      rw [hcomp, hstrip] at hm
      rcases cat_inv hm with ⟨w1, w2, hw, h1, h2⟩
      rcases (word_iff w1).mp h1 with ⟨hw1ne, hw1all⟩
      rcases (REseq_sections_iff rest hvrest w2).mp h2 with ⟨ts', hw2, hts'v, hts'm⟩
      have hkey : w1 ++ dottedAll ts' = t1 ++ dottedAll tts := by
        rw [← hw2, ← hw, htdata]
      rcases dotted_decomp_unique (no_dot_of_all_isAZ hw1all) hnd_t1
          (fun x hx => no_dot_of_all_isAZ ((validTopicSeg_iff x).mp (hts'v x hx)).2)
          hnd_tts hkey with ⟨hw1t1, hts'tts⟩
      rw [hpats, htops]
      have : segsMatch (rest.map classify) tts = true := by rw [← hts'tts]; exact hts'm
      simpa [classify, segsMatch] using this
    · intro hsm
      rw [hpats, htops] at hsm
      have hsm' : segsMatch (rest.map classify) tts = true := by
        simpa [classify, segsMatch] using hsm
      apply (rmatch_iff _ _).mpr
      rw [hcomp, hstrip, htdata]
      rcases (validTopicSeg_iff t1).mp hvt1 with ⟨ht1ne, ht1all⟩
      exact RMatch.cat ((word_iff t1).mpr ⟨ht1ne, ht1all⟩)
        ((REseq_sections_iff rest hvrest _).mpr ⟨tts, rfl, hvtts, hsm'⟩)
  · rcases validSec_lit hvs1 hstar hs1ne with ⟨hs1nil, hs1all⟩
    have hstrip : stripLead (sectionAST s1) = litsRE s1 := by
      rw [sectionAST, if_neg hstar, if_neg hs1ne, stripLead_dot]
    constructor
    · intro hmt
      have hm := (rmatch_iff _ _).mp hmt
      rw [hcomp, hstrip] at hm
      rcases cat_inv hm with ⟨w1, w2, hw, h1, h2⟩
      rw [(lits_iff s1 w1).mp h1] at hw
      rcases (REseq_sections_iff rest hvrest w2).mp h2 with ⟨ts', hw2, hts'v, hts'm⟩
      have hkey : s1 ++ dottedAll ts' = t1 ++ dottedAll tts := by
        rw [← hw2, ← hw, htdata]
      rcases dotted_decomp_unique (no_dot_of_all_isAZ hs1all) hnd_t1
          (fun x hx => no_dot_of_all_isAZ ((validTopicSeg_iff x).mp (hts'v x hx)).2)
          hnd_tts hkey with ⟨hs1t1, hts'tts⟩
      rw [hpats, htops]
      simp only [classify, if_neg hstar, if_neg hs1ne, segsMatch, Bool.and_eq_true,
        decide_eq_true_eq]
      exact ⟨hs1t1, by rw [← hts'tts]; exact hts'm⟩
    · intro hsm
      rw [hpats, htops] at hsm
      simp only [classify, if_neg hstar, if_neg hs1ne, segsMatch, Bool.and_eq_true,
        decide_eq_true_eq] at hsm
      obtain ⟨hs1t1, hsm'⟩ := hsm
      apply (rmatch_iff _ _).mpr
      rw [hcomp, hstrip, htdata, ← hs1t1]
      exact RMatch.cat ((lits_iff s1 s1).mpr rfl)
        ((REseq_sections_iff rest hvrest _).mpr ⟨tts, rfl, hvtts, hsm'⟩)

/-- A pattern whose first section is `#` compiles to a regex that requires a
leading delimiter, so it matches no valid topic at all. -/
theorem topicMatch_hash_first (p t : String)
    (hp : validPattern p = true) (ht : validTopic t = true)
    (hfirst : (splitDots p.data).head? = some ['#']) :
    topicMatch p t = false := by
  rcases hsecs : splitDots p.data with _ | ⟨s1, rest⟩
  · exact absurd hsecs (splitDots_ne_nil p.data)
  rcases htsegs : splitDots t.data with _ | ⟨t1, tts⟩
  · exact absurd htsegs (splitDots_ne_nil t.data)
  have hs1 : s1 = ['#'] := by
    rw [hsecs] at hfirst
    simpa using hfirst
  subst hs1
  have hvsecs : ∀ s ∈ splitDots p.data, validSec s = true := List.all_eq_true.mp hp
  have hvt : ∀ u ∈ splitDots t.data, validTopicSeg u = true := List.all_eq_true.mp ht
  rw [hsecs] at hvsecs
  rw [htsegs] at hvt
  have hvrest : ∀ s ∈ rest, validSec s = true := fun s hs => hvsecs s (by simp [hs])
  have hvt1 : validTopicSeg t1 = true := hvt t1 (by simp)
  have htdata : t.data = t1 ++ dottedAll tts := by
    conv_lhs => rw [← joinDots_splitDots t.data]
    rw [htsegs, joinDots_cons]
  cases hmt : topicMatch p t with
  | false => rfl
  | true =>
    exfalso
    have hm := (rmatch_iff _ _).mp hmt
    have hcomp : compileAST p =
        RE.cat (stripLead (sectionAST ['#'])) (REseq (rest.map sectionAST)) := by
      simp only [compileAST, hsecs, List.map_cons]
    have hstrip : stripLead (sectionAST ['#']) = RE.star (RE.cat dotRE wordRE) := by
      rw [sectionAST, if_neg (by decide), if_pos rfl]
      rfl
    rw [hcomp, hstrip] at hm
    rcases cat_inv hm with ⟨w1, w2, hw, h1, h2⟩
    rcases (hash_lang_iff w1).mp h1 with ⟨ss, hw1, _⟩
    rcases (REseq_sections_iff rest hvrest w2).mp h2 with ⟨ts', hw2, _, _⟩
    have hts : t.data = dottedAll (ss ++ ts') := by
      rw [hw, hw1, hw2, dottedAll_append]
    rcases (validTopicSeg_iff t1).mp hvt1 with ⟨ht1ne, ht1all⟩
    cases ht1 : t1 with
    | nil => exact ht1ne ht1
    | cons c cs =>
      have hc : isAZ c = true := by
        rw [ht1] at ht1all
        exact List.all_eq_true.mp ht1all c (by simp)
      have hhead : t.data = c :: (cs ++ dottedAll tts) := by
        rw [htdata, ht1]; simp
      rcases dotted_shape (ss ++ ts') with h0 | ⟨r0, h0⟩
      · rw [h0] at hts
        rw [hhead] at hts
        simp at hts
      · rw [h0] at hts
        rw [hhead] at hts
        injection hts with h1' _
        rw [h1'] at hc
        revert hc
        decide

/-! ### rethinkmq.py: Exchange.consume, Queue, and the assert_table guard -/

namespace RethinkMQ

/-- One changefeed event: the `new_val` of a write, as delivered by the
store in write order. -/
structure ChangeEvent where
  topic : String
  payload : String
deriving DecidableEq

/-- The OR-combined filter of `Exchange.consume`: the first compiled regex
is popped from the list and the remaining ones are folded in with `|=`.
`topicMatch q t` models `r.row['topic'].match(binding_key_to_regex(q))`. -/
def matchersFold (first : String) (rest : List String) (t : String) : Bool :=
  rest.foldl (fun acc q => acc || topicMatch q t) (topicMatch first t)

/-- `Exchange.consume` of rethinkmq.py: a generator that raises on its
first iteration when no patterns were provided, and otherwise yields
`(topic, payload)` from the single changefeed of the exchange's table,
filtered by the OR of all compiled patterns. The changefeed is modelled by
the list of change events the store delivers, in write order. -/
def consume (patterns : List String) (events : List ChangeEvent) :
    Except String (List (String × String)) :=
  match patterns with
  | [] => Except.error ("Nothing to consume, no patterns provided")
  | p :: ps =>
      Except.ok ((events.filter (fun e => matchersFold p ps e.topic)).map
        (fun e => (e.topic, e.payload)))

/-- Argument passed to `Queue.bind`: rethinkmq.py distinguishes Topic
instances (by `isinstance`) from raw pattern strings; a Topic carries its
dotted name. -/
inductive BindArg
  | pattern : String → BindArg
  | topicObj : String → BindArg
deriving DecidableEq

/-- The translation `Queue.bind` applies to each argument: a Topic named
`n` becomes the literal pattern `n + '.#'`. -/
def bindTranslate : BindArg → String
  | BindArg.pattern p => p
  | BindArg.topicObj n => n ++ ".#"

/-- A queue: its exchange is left implicit (consumption takes the event
stream directly), so the state is the binding list. -/
structure Queue where
  bindings : List String
deriving DecidableEq

/-- `Queue.bind`: append each translated argument to the binding list. -/
def Queue.bind (q : Queue) (args : List BindArg) : Queue :=
  { bindings := q.bindings ++ args.map bindTranslate }

/-- `Queue.consume`: delegate to `Exchange.consume` with the stored
bindings. -/
def Queue.consume (q : Queue) (events : List ChangeEvent) :
    Except String (List (String × String)) :=
  RethinkMQ.consume q.bindings events

/-- The `_asserted` guard state of one Exchange instance, together with a
count of how many times `conn.assert_table` has actually been executed. -/
structure AssertState where
  asserted : Bool
  creations : Nat
deriving DecidableEq

/-- The `assert_table` decorator of rethinkmq.py: before the decorated
method body runs, execute `conn.assert_table` if and only if the instance
flag is unset, then set the flag. -/
def assertGuard (st : AssertState) : AssertState :=
  if st.asserted then st else { asserted := true, creations := st.creations + 1 }

/-- An operation decorated by `assert_table`: `Exchange.publish` or
`Exchange.consume`. -/
inductive MQOp
  | publish : MQOp
  | consume : MQOp
deriving DecidableEq

/-- Run a sequence of decorated operations on one Exchange instance,
tracking the guard state. Each operation passes through `assertGuard`
synchronously before its body. -/
def runOps (ops : List MQOp) (st : AssertState) : AssertState :=
  match ops with
  | [] => st
  | _ :: rest => runOps rest (assertGuard st)

end RethinkMQ

/-! ### repubsub.py: Exchange.publish and Exchange.assert_table -/

namespace Repubsub

/-- A stored record `{topic, payload, _force_change}`. The topic key type
is a parameter: repubsub topics can be strings, tag lists, or nested
documents. The change marker is a nonce (the source draws
`random.random()`). -/
structure Rec (K : Type) where
  topic : K
  payload : String
  force_change : Nat
deriving DecidableEq

/-- The update clause of `Exchange.publish`: a document whose topic equals
the key gets the new payload and change marker; others are untouched. -/
def updF {K : Type} [DecidableEq K] (topic_key : K) (payload : String)
    (marker : Nat) (r : Rec K) : Rec K :=
  if r.topic = topic_key then
    { topic := r.topic, payload := payload, force_change := marker }
  else r

/-- `Exchange.publish` of repubsub.py: first update every document whose
`topic` equals the key, writing the payload and a fresh change marker; if
the update reports nothing replaced, insert a new document. The
`marker` argument models this call's fresh `random.random()` value.
RethinkDB counts a document as replaced only when the update changed it. -/
def publish {K : Type} [DecidableEq K] (table : List (Rec K)) (topic_key : K)
    (payload : String) (marker : Nat) : List (Rec K) :=
  let replaced := (table.filter (fun r =>
    decide (r.topic = topic_key ∧ ¬(r.payload = payload ∧ r.force_change = marker)))).length
  let updated := table.map (updF topic_key payload marker)
  if replaced = 0 then updated ++ [⟨topic_key, payload, marker⟩] else updated

/-- Number of records stored under a key. -/
def countKey {K : Type} [DecidableEq K] (table : List (Rec K)) (k : K) : Nat :=
  (table.filter (fun r => decide (r.topic = k))).length

/-- The invariant of the record store: at most one record per distinct
topic key. -/
def atMostOnePerKey {K : Type} [DecidableEq K] (table : List (Rec K)) : Prop :=
  ∀ k, countKey table k ≤ 1

/-- Lexicographic code-point comparison of character lists: Python's string
ordering, used by `sorted`. -/
def lexLe : List Char → List Char → Bool
  | [], _ => true
  | _ :: _, [] => false
  | a :: as, b :: bs => if a = b then lexLe as bs else decide (a < b)

/-- Python's `<=` on strings. -/
def strLe (a b : String) : Bool := lexLe a.data b.data

/-- demo.py `tags_publish` canonicalizes a tag list with
`sorted(set(tags))`: duplicates removed, then sorted ascending, so that two
publications naming the same set of tags use the same topic key. -/
def canonicalize (tags : List String) : List String :=
  List.insertionSort (fun a b => strLe a b = true) tags.dedup

theorem lexLe_total : ∀ a b : List Char, lexLe a b = true ∨ lexLe b a = true := by
  intro a
  induction a with
  | nil => intro b; left; rfl
  | cons x as ih =>
    intro b
    cases b with
    | nil => right; rfl
    | cons y bs =>
      by_cases hxy : x = y
      · subst hxy
        simp only [lexLe, if_pos rfl]
        exact ih bs
      · simp only [lexLe, if_neg hxy, if_neg (Ne.symm hxy)]
        rcases lt_or_gt_of_ne hxy with h | h
        · left; exact decide_eq_true h
        · right; exact decide_eq_true h

theorem lexLe_antisymm : ∀ a b : List Char,
    lexLe a b = true → lexLe b a = true → a = b := by
  intro a
  induction a with
  | nil =>
    intro b _ h2
    cases b with
    | nil => rfl
    | cons y bs => exact absurd h2 (by simp [lexLe])
  | cons x as ih =>
    intro b h1 h2
    cases b with
    | nil => exact absurd h1 (by simp [lexLe])
    | cons y bs =>
      by_cases hxy : x = y
      · subst hxy
        simp only [lexLe, if_pos rfl] at h1 h2
        rw [ih bs h1 h2]
      · simp only [lexLe, if_neg hxy, if_neg (Ne.symm hxy)] at h1 h2
        exact absurd (lt_trans (of_decide_eq_true h1) (of_decide_eq_true h2))
          (lt_irrefl x)

theorem lexLe_trans : ∀ a b c : List Char,
    lexLe a b = true → lexLe b c = true → lexLe a c = true := by
  intro a
  induction a with
  | nil => intro b c _ _; rfl
  | cons x as ih =>
    intro b c h1 h2
    cases b with
    | nil => exact absurd h1 (by simp [lexLe])
    | cons y bs =>
      cases c with
      | nil => exact absurd h2 (by simp [lexLe])
      | cons z cs =>
        by_cases hxy : x = y
        · subst hxy
          simp only [lexLe, if_pos rfl] at h1
          by_cases hxz : x = z
          · subst hxz
            simp only [lexLe, if_pos rfl] at h2 ⊢
            exact ih bs cs h1 h2
          · simp only [lexLe, if_neg hxz] at h2 ⊢
            exact h2
        · simp only [lexLe, if_neg hxy] at h1
          by_cases hyz : y = z
          · subst hyz
            simp only [lexLe, if_neg hxy]
            exact h1
          · simp only [lexLe, if_neg hyz] at h2
            have hxz : x < z := lt_trans (of_decide_eq_true h1) (of_decide_eq_true h2)
            simp only [lexLe, if_neg (ne_of_lt hxz)]
            exact decide_eq_true hxz

instance : IsTotal String (fun a b => strLe a b = true) :=
  ⟨fun a b => lexLe_total a.data b.data⟩

instance : IsTrans String (fun a b => strLe a b = true) :=
  ⟨fun a b c => lexLe_trans a.data b.data c.data⟩

instance : IsAntisymm String (fun a b => strLe a b = true) :=
  ⟨fun a b h1 h2 => congrArg String.mk (lexLe_antisymm a.data b.data h1 h2)⟩

/-- Publishing on a tag-set topic, as demo.py does: the canonicalized tag
list is the record key. -/
def tagsPublish (table : List (Rec (List String))) (tags : List String)
    (payload : String) (marker : Nat) : List (Rec (List String)) :=
  publish table (canonicalize tags) payload marker

/-- Outcome of one creation call against the store (`db_create` or
`table_create`). -/
inductive RqlResult
  | ok : RqlResult
  | err : String → RqlResult
deriving DecidableEq

/-- Errors surfaced by `assert_table`. `rqlRuntime` is a re-raised
RqlRuntimeError carrying its message — the only error the source can
propagate. `exchangeUnavailable` is modelled from the spec: §7 of the spec
names an `ExchangeUnavailableError`, but no such class exists anywhere in
the source; the constructor exists only so the spec's claim can be stated
and compared against the code's behavior. -/
inductive MQError
  | rqlRuntime : String → MQError
  | exchangeUnavailable : String → MQError
deriving DecidableEq

/-- Substring test on character lists (Python's `in` on str). -/
def containsSub (needle : List Char) : List Char → Bool
  | [] => needle.isEmpty
  | c :: t => needle.isPrefixOf (c :: t) || containsSub needle t

/-- Python `'already exists' in rre.message`. -/
def mentionsAlreadyExists (msg : String) : Bool :=
  containsSub ("already exists".data) msg.data

/-- One `try/except RqlRuntimeError` block of `assert_table`: swallow the
error when its message contains 'already exists', otherwise re-raise the
original error. -/
def handleCreate (res : RqlResult) : Except MQError Unit :=
  match res with
  | RqlResult.ok => Except.ok ()
  | RqlResult.err m =>
      if mentionsAlreadyExists m then Except.ok ()
      else Except.error (MQError.rqlRuntime m)

/-- `Exchange.assert_table` of repubsub.py: return immediately when the
instance is already asserted; otherwise run `db_create` then
`table_create`, each wrapped in the swallow-already-exists handler, and set
the flag only after both succeed. The returned Bool is the new `_asserted`
flag. -/
def assert_table (asserted : Bool) (dbRes tblRes : RqlResult) :
    Except MQError Bool :=
  if asserted then Except.ok true
  else
    match handleCreate dbRes with
    | Except.error e => Except.error e
    | Except.ok _ =>
        match handleCreate tblRes with
        | Except.error e => Except.error e
        | Except.ok _ => Except.ok true

/-- Is the outcome the spec's `ExchangeUnavailableError`? -/
def isExchangeUnavailable {α : Type} : Except MQError α → Bool
  | Except.error (MQError.exchangeUnavailable _) => true
  | _ => false

theorem updF_topic {K : Type} [DecidableEq K] (k : K) (payload : String)
    (marker : Nat) (r : Rec K) : (updF k payload marker r).topic = r.topic := by
  by_cases h : r.topic = k <;> simp [updF, h]

theorem countKey_cons {K : Type} [DecidableEq K] (r : Rec K) (rs : List (Rec K))
    (k : K) : countKey (r :: rs) k = (if r.topic = k then 1 else 0) + countKey rs k := by
  simp only [countKey, List.filter_cons]
  by_cases h : r.topic = k
  · simp [h]; omega
  · simp [h]

theorem countKey_append {K : Type} [DecidableEq K] (t1 t2 : List (Rec K)) (k : K) :
    countKey (t1 ++ t2) k = countKey t1 k + countKey t2 k := by
  simp [countKey, List.filter_append]

theorem countKey_map_updF {K : Type} [DecidableEq K] (table : List (Rec K))
    (k : K) (payload : String) (marker : Nat) (k' : K) :
    countKey (table.map (updF k payload marker)) k' = countKey table k' := by
  induction table with
  | nil => rfl
  | cons r rs ih =>
    rw [List.map_cons, countKey_cons, countKey_cons, updF_topic, ih]

theorem atMostOne_singleton {K : Type} [DecidableEq K] (r : Rec K) :
    atMostOnePerKey [r] := by
  intro k
  rw [countKey_cons]
  by_cases h : r.topic = k <;> simp [h, countKey]

/-- `publish` takes exactly one of two paths when the marker is fresh:
insert (key absent) or in-place update (key present). -/
theorem publish_cases {K : Type} [DecidableEq K] (table : List (Rec K)) (k : K)
    (payload : String) (marker : Nat)
    (hfresh : ∀ r ∈ table, r.force_change ≠ marker) :
    ((∀ r ∈ table, r.topic ≠ k) ∧
      publish table k payload marker = table ++ [⟨k, payload, marker⟩]) ∨
    ((∃ r ∈ table, r.topic = k) ∧
      publish table k payload marker = table.map (updF k payload marker)) := by
  by_cases habs : ∀ r ∈ table, r.topic ≠ k
  · left
    refine ⟨habs, ?_⟩
    have hfilter : table.filter (fun r =>
        decide (r.topic = k ∧ ¬(r.payload = payload ∧ r.force_change = marker))) = [] := by
      rw [List.filter_eq_nil_iff]
      intro r hr
      simp only [decide_eq_true_eq, not_and]
      intro h1
      exact absurd h1 (habs r hr)
    have hmap : table.map (updF k payload marker) = table := by
      conv_rhs => rw [← List.map_id table]
      apply List.map_congr_left
      intro r hr
      simp [updF, habs r hr]
    simp only [publish]
    rw [hfilter]
    simp [hmap]
  · right
    push_neg at habs
    rcases habs with ⟨r0, hr0, hk0⟩
    refine ⟨⟨r0, hr0, hk0⟩, ?_⟩
    have hmem : r0 ∈ table.filter (fun r =>
        decide (r.topic = k ∧ ¬(r.payload = payload ∧ r.force_change = marker))) := by
      rw [List.mem_filter]
      refine ⟨hr0, ?_⟩
      simp only [decide_eq_true_eq]
      exact ⟨hk0, fun hcon => hfresh r0 hr0 hcon.2⟩
    have hne : (table.filter (fun r =>
        decide (r.topic = k ∧ ¬(r.payload = payload ∧ r.force_change = marker)))).length ≠ 0 := by
      intro h0
      rw [List.length_eq_zero] at h0
      rw [h0] at hmem
      exact absurd hmem (List.not_mem_nil r0)
    simp only [publish, if_neg hne]

end Repubsub

/-! ### Helpers for the OR-combined consume filter -/

theorem foldl_or_eq_any {α : Type} (f : α → Bool) :
    ∀ (l : List α) (b : Bool), l.foldl (fun acc q => acc || f q) b = (b || l.any f) := by
  intro l
  induction l with
  | nil => intro b; simp
  | cons x xs ih => intro b; simp [List.foldl_cons, ih, Bool.or_assoc]

theorem matchersFold_eq_any (p : String) (ps : List String) (t : String) :
    RethinkMQ.matchersFold p ps t = (p :: ps).any (fun q => topicMatch q t) := by
  show ps.foldl (fun acc q => acc || topicMatch q t) (topicMatch p t) = _
  rw [foldl_or_eq_any]
  simp

/-! ### Sanity checks: the spec's worked examples, evaluated on the code -/

example : topicMatch ("weather.*.temp") ("weather.us.temp") = true := by decide

example : topicMatch ("weather.*.temp") ("weather.us.uk.temp") = false := by decide

example : topicMatch ("weather.#.temp") ("weather.us.uk.temp") = true := by decide

example : topicMatch ("weather.#.temp") ("weather.temp") = true := by decide

/-! ### The claims -/

/-- C1, counterexample: the claimed iff fails for the valid pattern
`#.weather` against the valid topic `weather`: the per-segment rule accepts
(`#` consumes zero segments, then the literal matches) but the compiled
predicate rejects. -/
theorem c1_counterexample :
    validPattern ("#.weather") = true ∧ validTopic ("weather") = true ∧
    ¬(topicMatch ("#.weather") ("weather") = true ↔
      segsMatch (patSegs ("#.weather")) (topicSegs ("weather")) = true) := by
  refine ⟨by decide, by decide, by decide⟩

/-- C1 (amended): for every valid binding pattern P and valid topic T, the
compiled predicate agrees with the position-by-position per-segment rule
(literal equality, exactly one segment for `*`, zero or more whole segments
for `#`) whenever P's first segment is not `#`; a pattern whose first
segment is `#` compiles to a predicate that matches no valid topic, because
the produced regex still requires a leading delimiter. -/
theorem c1_matching_characterization (p t : String)
    (hp : validPattern p = true) (ht : validTopic t = true) :
    topicMatch p t =
      if (splitDots p.data).head? = some ['#'] then false
      else segsMatch (patSegs p) (topicSegs t) := by
  by_cases h : (splitDots p.data).head? = some ['#']
  · rw [if_pos h]
    exact topicMatch_hash_first p t hp ht h
  · rw [if_neg h]
    exact topicMatch_eq_segsMatch p t hp ht h

theorem c1_matching_characterization_witness :
    validPattern ("weather.*.temp") = true ∧
    validTopic ("weather.us.temp") = true ∧
    topicMatch ("weather.*.temp") ("weather.us.temp") =
      (if (splitDots ("weather.*.temp").data).head? = some ['#'] then false
       else segsMatch (patSegs ("weather.*.temp")) (topicSegs ("weather.us.temp"))) :=
  ⟨by decide, by decide,
    c1_matching_characterization ("weather.*.temp") ("weather.us.temp")
      (by decide) (by decide)⟩

/-- C2: the code mishandles a leading `#`. The special-casing of the first
segment is `lstrip(r'\.')`, which cannot strip the escaped delimiter inside
the produced group `(?:\.[a-zA-Z]+)*`, so compile("#.weather") yields
`^(?:\.[a-zA-Z]+)*\.weather$`, which requires a leading dot and does not
match the degenerate one-segment topic "weather" — although the per-segment
rule (and the function's own comment, `# match zero or more words`) says it
must. -/
theorem c2_hash_first_behavior :
    binding_key_to_regex ("#.weather") = "^(?:\\.[a-zA-Z]+)*\\.weather$" ∧
    topicMatch ("#.weather") ("weather") = false ∧
    segsMatch (patSegs ("#.weather")) (topicSegs ("weather")) = true := by
  refine ⟨by decide, by decide, by decide⟩

/-- C3, counterexample: compilation of the empty pattern and of a pattern
with an empty segment does not fail — `binding_key_to_regex` has no
validation and no error path; it returns the regexes `^$` and `^a\.\.b$`
respectively (and no `InvalidPatternError` class exists in the source). -/
theorem c3_counterexample :
    binding_key_to_regex ("") = "^$" ∧
    binding_key_to_regex ("a..b") = "^a\\.\\.b$" := by
  refine ⟨by decide, by decide⟩

/-- Helper: a valid topic has nonempty character data. -/
theorem validTopic_data_ne_nil {t : String} (ht : validTopic t = true) :
    t.data ≠ [] := by
  intro h
  rw [validTopic, h] at ht
  exact absurd ht (by decide)

/-- C3 (amended): compiling "" and "a..b" raises nothing (compilation is a
total, purely local string translation); the predicates it returns match
only the original malformed strings, hence no valid topic. -/
theorem c3_invalid_patterns_compile_unmatchable (t : String)
    (ht : validTopic t = true) :
    topicMatch ("") t = false ∧ topicMatch ("a..b") t = false := by
  constructor
  · cases hm : topicMatch ("") t with
    | false => rfl
    | true =>
      exfalso
      have h := (rmatch_iff _ _).mp hm
      have hc : compileAST ("") = RE.cat RE.eps RE.eps := rfl
      rw [hc] at h
      rcases cat_inv h with ⟨w1, w2, hw, h1, h2⟩
      rw [eps_inv h1, eps_inv h2] at hw
      exact validTopic_data_ne_nil ht (by simpa using hw)
  · cases hm : topicMatch ("a..b") t with
    | false => rfl
    | true =>
      exfalso
      have h := (rmatch_iff _ _).mp hm
      have hc : compileAST ("a..b") = RE.cat (litsRE ['a'])
          (RE.cat (RE.cat dotRE (litsRE []))
            (RE.cat (RE.cat dotRE (litsRE ['b'])) RE.eps)) := rfl
      rw [hc] at h
      rcases cat_inv h with ⟨w1, w2, hw, h1, h2⟩
      rw [(lits_iff _ _).mp h1] at hw
      rcases cat_inv h2 with ⟨v1, v2, hv, hv1, hv2⟩
      rcases cat_inv hv1 with ⟨x1, x2, hx, hx1, hx2⟩
      rw [lit_inv hx1, (lits_iff _ _).mp hx2] at hx
      rcases cat_inv hv2 with ⟨y1, y2, hy, hy1, hy2⟩
      rcases cat_inv hy1 with ⟨z1, z2, hz, hz1, hz2⟩
      rw [lit_inv hz1, (lits_iff _ _).mp hz2] at hz
      rw [eps_inv hy2] at hy
      have hdata : t.data = 'a' :: '.' :: '.' :: 'b' :: [] := by
        rw [hw, hv, hx, hy, hz]
        rfl
      rw [validTopic, hdata] at ht
      exact absurd ht (by decide)

theorem c3_invalid_patterns_compile_unmatchable_witness :
    validTopic ("weather") = true ∧
    (topicMatch ("") ("weather") = false ∧ topicMatch ("a..b") ("weather") = false) :=
  ⟨by decide, c3_invalid_patterns_compile_unmatchable ("weather") (by decide)⟩

/-- C4: `Exchange.consume` with patterns P1..Pn opens a single filtered
changefeed whose predicate is the fold of `|=` over the compiled patterns:
an event passes the filter exactly when at least one pattern's compiled
predicate matches its topic, and the delivered messages are an
order-preserving sublist of the one event stream (one total delivery
order), not a merge of n separate subscriptions. -/
theorem c4_consume_or_single_stream (p : String) (ps : List String)
    (events : List RethinkMQ.ChangeEvent) :
    RethinkMQ.consume (p :: ps) events =
      Except.ok ((events.filter
        (fun e => (p :: ps).any (fun q => topicMatch q e.topic))).map
        (fun e => (e.topic, e.payload))) ∧
    ∀ msgs, RethinkMQ.consume (p :: ps) events = Except.ok msgs →
      List.Sublist msgs (events.map (fun e => (e.topic, e.payload))) := by
  have hfilters : events.filter (fun e => RethinkMQ.matchersFold p ps e.topic) =
      events.filter (fun e => (p :: ps).any (fun q => topicMatch q e.topic)) := by
    apply List.filter_congr
    intro e _
    exact matchersFold_eq_any p ps e.topic
  constructor
  · simp only [RethinkMQ.consume, hfilters]
  · intro msgs hmsgs
    simp only [RethinkMQ.consume, Except.ok.injEq] at hmsgs
    rw [← hmsgs]
    exact List.Sublist.map _ (List.filter_sublist events)

/-- C5: `Queue.bind` with a Topic named n appends exactly the literal
pattern `n ++ ".#"`: the binding lists coincide, and so does any subsequent
consumption. -/
theorem c5_bind_topic_eq_pattern (q : RethinkMQ.Queue) (n : String)
    (events : List RethinkMQ.ChangeEvent) :
    q.bind [RethinkMQ.BindArg.topicObj n] =
      q.bind [RethinkMQ.BindArg.pattern (n ++ ".#")] ∧
    (q.bind [RethinkMQ.BindArg.topicObj n]).consume events =
      (q.bind [RethinkMQ.BindArg.pattern (n ++ ".#")]).consume events :=
  ⟨rfl, rfl⟩

/-- C6: under non-racing conditions (the stored markers differ from this
call's fresh marker), `Exchange.publish` preserves
at-most-one-record-per-key: it appends the record when the key is absent,
and when the key is present it overwrites payload and change marker in
place — same length, no second record for the key. -/
theorem c6_publish_upsert_invariant {K : Type} [DecidableEq K]
    (table : List (Repubsub.Rec K)) (k : K) (payload : String) (marker : Nat)
    (hinv : Repubsub.atMostOnePerKey table)
    (hfresh : ∀ r ∈ table, r.force_change ≠ marker) :
    Repubsub.atMostOnePerKey (Repubsub.publish table k payload marker) ∧
    ((∀ r ∈ table, r.topic ≠ k) →
      Repubsub.publish table k payload marker = table ++ [⟨k, payload, marker⟩]) ∧
    ((∃ r ∈ table, r.topic = k) →
      (Repubsub.publish table k payload marker).length = table.length ∧
      Repubsub.publish table k payload marker =
        table.map (fun r => if r.topic = k then ⟨k, payload, marker⟩ else r)) := by
  rcases Repubsub.publish_cases table k payload marker hfresh with
    ⟨habs, heq⟩ | ⟨hpres, heq⟩
  · refine ⟨?_, fun _ => heq, ?_⟩
    · intro k'
      rw [heq, Repubsub.countKey_append]
      by_cases h : k' = k
      · subst h
        have h0 : Repubsub.countKey table k' = 0 := by
          rw [Repubsub.countKey, List.length_eq_zero, List.filter_eq_nil_iff]
          intro r hr
          simpa using habs r hr
        rw [h0, Repubsub.countKey_cons]
        simp [Repubsub.countKey]
      · have h1 : Repubsub.countKey [(⟨k, payload, marker⟩ : Repubsub.Rec K)] k' = 0 := by
          rw [Repubsub.countKey_cons]
          have hne : ¬((⟨k, payload, marker⟩ : Repubsub.Rec K).topic = k') :=
            fun hc => h hc.symm
          rw [if_neg hne]
          simp [Repubsub.countKey]
        rw [h1]
        simpa using hinv k'
    · intro hpres
      exfalso
      rcases hpres with ⟨r, hr, hk⟩
      exact habs r hr hk
  · refine ⟨?_, ?_, ?_⟩
    · intro k'
      rw [heq, Repubsub.countKey_map_updF]
      exact hinv k'
    · intro habs
      exfalso
      rcases hpres with ⟨r, hr, hk⟩
      exact habs r hr hk
    · intro _
      refine ⟨by rw [heq, List.length_map], ?_⟩
      rw [heq]
      apply List.map_congr_left
      intro r _
      by_cases h : r.topic = k
      · simp [Repubsub.updF, h]
      · simp [Repubsub.updF, h]

theorem c6_publish_upsert_invariant_witness :
    Repubsub.atMostOnePerKey [Repubsub.Rec.mk ("news") ("v0") 0] ∧
    (∀ r ∈ [Repubsub.Rec.mk ("news") ("v0") 0], r.force_change ≠ 1) ∧
    (Repubsub.atMostOnePerKey
        (Repubsub.publish [Repubsub.Rec.mk ("news") ("v0") 0] ("news") ("v1") 1) ∧
      ((∀ r ∈ [Repubsub.Rec.mk ("news") ("v0") 0], r.topic ≠ ("news")) →
        Repubsub.publish [Repubsub.Rec.mk ("news") ("v0") 0] ("news") ("v1") 1 =
          [Repubsub.Rec.mk ("news") ("v0") 0] ++ [⟨"news", "v1", 1⟩]) ∧
      ((∃ r ∈ [Repubsub.Rec.mk ("news") ("v0") 0], r.topic = ("news")) →
        (Repubsub.publish [Repubsub.Rec.mk ("news") ("v0") 0] ("news") ("v1") 1).length =
          ([Repubsub.Rec.mk ("news") ("v0") 0] : List (Repubsub.Rec String)).length ∧
        Repubsub.publish [Repubsub.Rec.mk ("news") ("v0") 0] ("news") ("v1") 1 =
          [Repubsub.Rec.mk ("news") ("v0") 0].map
            (fun r => if r.topic = ("news") then ⟨"news", "v1", 1⟩ else r))) :=
  ⟨Repubsub.atMostOne_singleton _, by decide,
    c6_publish_upsert_invariant [Repubsub.Rec.mk ("news") ("v0") 0] ("news") ("v1") 1
      (Repubsub.atMostOne_singleton _) (by decide)⟩

/-- C7: canonicalization is order-insensitive: any two tag lists naming the
same set canonicalize identically, so the corresponding tag-set publishes
target the same stored record; concretely canonicalize(["b","a"]) and
canonicalize(["a","b"]) are both ["a","b"]. -/
theorem c7_canonicalize_same_record (xs ys : List String)
    (h : xs.toFinset = ys.toFinset) :
    Repubsub.canonicalize xs = Repubsub.canonicalize ys ∧
    (∀ table payload marker,
      Repubsub.tagsPublish table xs payload marker =
        Repubsub.tagsPublish table ys payload marker) ∧
    Repubsub.canonicalize (["b", "a"]) = ["a", "b"] ∧
    Repubsub.canonicalize (["a", "b"]) = ["a", "b"] := by
  have hperm : List.Perm xs.dedup ys.dedup := List.toFinset_eq_iff_perm_dedup.mp h
  have hcanon : Repubsub.canonicalize xs = Repubsub.canonicalize ys := by
    show List.insertionSort (fun a b => Repubsub.strLe a b = true) xs.dedup =
      List.insertionSort (fun a b => Repubsub.strLe a b = true) ys.dedup
    exact List.eq_of_perm_of_sorted
      ((List.perm_insertionSort _ _).trans
        (hperm.trans (List.perm_insertionSort _ _).symm))
      (List.sorted_insertionSort _ _) (List.sorted_insertionSort _ _)
  refine ⟨hcanon, ?_, by decide, by decide⟩
  intro table payload marker
  rw [Repubsub.tagsPublish, Repubsub.tagsPublish, hcanon]

theorem c7_canonicalize_same_record_witness :
    (["b", "a"] : List String).toFinset = (["a", "b"] : List String).toFinset ∧
    (Repubsub.canonicalize (["b", "a"]) = Repubsub.canonicalize (["a", "b"]) ∧
      (∀ table payload marker,
        Repubsub.tagsPublish table (["b", "a"]) payload marker =
          Repubsub.tagsPublish table (["a", "b"]) payload marker) ∧
      Repubsub.canonicalize (["b", "a"]) = ["a", "b"] ∧
      Repubsub.canonicalize (["a", "b"]) = ["a", "b"]) :=
  ⟨by decide, c7_canonicalize_same_record (["b", "a"]) (["a", "b"]) (by decide)⟩

/-- C8: for every nonempty sequence of decorated operations on a fresh
exchange instance, the creation step runs during the first operation and
exactly once in total: afterwards the instance flag is set and every later
operation skips creation. -/
theorem c8_assert_table_once (ops : List RethinkMQ.MQOp) (h : ops ≠ []) :
    (RethinkMQ.runOps ops (RethinkMQ.AssertState.mk false 0)).asserted = true ∧
    (RethinkMQ.runOps ops (RethinkMQ.AssertState.mk false 0)).creations = 1 := by
  cases ops with
  | nil => exact absurd rfl h
  | cons op rest =>
    have hstable : ∀ (l : List RethinkMQ.MQOp) (n : Nat),
        RethinkMQ.runOps l (RethinkMQ.AssertState.mk true n) =
          RethinkMQ.AssertState.mk true n := by
      intro l
      induction l with
      | nil => intro n; rfl
      | cons x xs ih =>
        intro n
        simp [RethinkMQ.runOps, RethinkMQ.assertGuard, ih]
    simp [RethinkMQ.runOps, RethinkMQ.assertGuard, hstable]

theorem c8_assert_table_once_witness :
    ([RethinkMQ.MQOp.publish, RethinkMQ.MQOp.consume] ≠ ([] : List RethinkMQ.MQOp)) ∧
    ((RethinkMQ.runOps [RethinkMQ.MQOp.publish, RethinkMQ.MQOp.consume]
        (RethinkMQ.AssertState.mk false 0)).asserted = true ∧
      (RethinkMQ.runOps [RethinkMQ.MQOp.publish, RethinkMQ.MQOp.consume]
        (RethinkMQ.AssertState.mk false 0)).creations = 1) :=
  ⟨by decide, c8_assert_table_once [RethinkMQ.MQOp.publish, RethinkMQ.MQOp.consume] (by decide)⟩

/-- C9, counterexample: when table creation fails with a message not
containing 'already exists', the code re-raises the original
RqlRuntimeError, not an ExchangeUnavailableError — the source defines no
such class. -/
theorem c9_counterexample :
    Repubsub.assert_table false Repubsub.RqlResult.ok
        (Repubsub.RqlResult.err ("disk full")) =
      Except.error (Repubsub.MQError.rqlRuntime ("disk full")) ∧
    Repubsub.isExchangeUnavailable
      (Repubsub.assert_table false Repubsub.RqlResult.ok
        (Repubsub.RqlResult.err ("disk full"))) = false :=
  ⟨rfl, rfl⟩

/-- C9 (amended): during lazy creation, a failure whose message contains
'already exists' is swallowed and the operation proceeds; any other failure
is not retried and propagates the original runtime error to the caller
(there is no ExchangeUnavailableError wrapper in the source); an already
asserted instance skips creation entirely. -/
theorem c9_swallow_or_propagate (m : String) (dbRes : Repubsub.RqlResult) :
    (Repubsub.mentionsAlreadyExists m = true →
      Repubsub.assert_table false (Repubsub.RqlResult.err m) Repubsub.RqlResult.ok =
        Except.ok true) ∧
    (Repubsub.mentionsAlreadyExists m = false →
      Repubsub.handleCreate dbRes = Except.ok () →
      Repubsub.assert_table false dbRes (Repubsub.RqlResult.err m) =
        Except.error (Repubsub.MQError.rqlRuntime m)) ∧
    Repubsub.assert_table true dbRes (Repubsub.RqlResult.err m) = Except.ok true := by
  refine ⟨?_, ?_, ?_⟩
  · intro h
    simp [Repubsub.assert_table, Repubsub.handleCreate, h]
  · intro h hdb
    have hstep : Repubsub.assert_table false dbRes (Repubsub.RqlResult.err m) =
        match Repubsub.handleCreate dbRes with
        | Except.error e => Except.error e
        | Except.ok _ =>
            match Repubsub.handleCreate (Repubsub.RqlResult.err m) with
            | Except.error e => Except.error e
            | Except.ok _ => Except.ok true := rfl
    rw [hstep, hdb]
    simp [Repubsub.handleCreate, h]
  · simp [Repubsub.assert_table]

theorem c9_swallow_or_propagate_witness :
    Repubsub.mentionsAlreadyExists ("Table messages already exists") = true ∧
    Repubsub.mentionsAlreadyExists ("disk full") = false ∧
    Repubsub.handleCreate Repubsub.RqlResult.ok = Except.ok () ∧
    Repubsub.assert_table false
        (Repubsub.RqlResult.err ("Table messages already exists"))
        Repubsub.RqlResult.ok = Except.ok true ∧
    Repubsub.assert_table false Repubsub.RqlResult.ok
        (Repubsub.RqlResult.err ("disk full")) =
      Except.error (Repubsub.MQError.rqlRuntime ("disk full")) :=
  ⟨by decide, by decide, rfl,
    (c9_swallow_or_propagate ("Table messages already exists")
      Repubsub.RqlResult.ok).1 (by decide),
    (c9_swallow_or_propagate ("disk full") Repubsub.RqlResult.ok).2.1 (by decide) rfl⟩

/-- C10: consuming from a queue with zero bound patterns fails with the
source's exception ('Nothing to consume, no patterns provided') and yields
no messages: an empty binding list never silently delivers the unfiltered
stream. -/
theorem c10_consume_empty_bindings (events : List RethinkMQ.ChangeEvent) :
    RethinkMQ.Queue.consume (RethinkMQ.Queue.mk []) events =
      Except.error ("Nothing to consume, no patterns provided") ∧
    ∀ msgs, RethinkMQ.Queue.consume (RethinkMQ.Queue.mk []) events ≠ Except.ok msgs := by
  refine ⟨rfl, ?_⟩
  intro msgs h
  simp [RethinkMQ.Queue.consume, RethinkMQ.consume] at h

end PubSub
